import Mathlib

/-! hotword: the key-sequence matcher and the rule loader

A shallow embedding of `main.go`.

* A Go `string` is the list of its bytes, a `rune` is its code point.
* The side effects of `robotgo` are recorded as a trace of `Effect`s.
* A run-time panic (index out of range) is the `none` state: the process is gone.
* `log.Fatalf` is recorded in the `exit` field of the outcome of `readConfig`.
-/

namespace Hotword

/-! ## Values -/

/-- A Go rune (an int32 code point); every rune this program builds is non-negative. -/
abbrev Rune := Nat

/-- A Go string: the sequence of its bytes, each a number below 256. -/
abbrev GoString := List Nat

/-- The UTF-8 encoding of a Unicode scalar value `r`, as the Go compiler stores the
characters of a string literal. -/
def EncodeRune (r : Rune) : GoString :=
  if r < 0x80 then [r]
  else if r < 0x800 then [0xC0 + r / 64, 0x80 + r % 64]
  else if r < 0x10000 then [0xE0 + r / 4096, 0x80 + r / 64 % 64, 0x80 + r % 64]
  else [0xF0 + r / 262144, 0x80 + r / 4096 % 64, 0x80 + r / 64 % 64, 0x80 + r % 64]

/-- A string literal of the source file: the UTF-8 bytes of its text. -/
def str (s : String) : GoString :=
  s.data.flatMap fun c => EncodeRune c.toNat

/-! ## The string library the program calls -/

/-- The constant `utf8.RuneError`. -/
def RuneError : Rune := 0xFFFD

/-- The entry of `utf8.first` for a leading byte of a multi-byte sequence: the length of the
sequence and the range accepted for its second byte; `none` for every other byte. -/
def first (s0 : Nat) : Option (Nat × Nat × Nat) :=
  if 0xC2 ≤ s0 ∧ s0 ≤ 0xDF then some (2, 0x80, 0xBF)
  else if s0 = 0xE0 then some (3, 0xA0, 0xBF)
  else if s0 = 0xED then some (3, 0x80, 0x9F)
  else if 0xE1 ≤ s0 ∧ s0 ≤ 0xEF then some (3, 0x80, 0xBF)
  else if s0 = 0xF0 then some (4, 0x90, 0xBF)
  else if s0 = 0xF4 then some (4, 0x80, 0x8F)
  else if 0xF1 ≤ s0 ∧ s0 ≤ 0xF3 then some (4, 0x80, 0xBF)
  else none

/-- The function `utf8.DecodeRuneInString`: the first rune of `s` and its width in bytes;
`(RuneError, 1)` for an invalid encoding, `(RuneError, 0)` for the empty string. -/
def DecodeRune (s : GoString) : Rune × Nat :=
  match s with
  | [] => (RuneError, 0)
  | s0 :: rest =>
    if s0 < 0x80 then (s0, 1)
    else
      match first s0 with
      | none => (RuneError, 1)
      | some (sz, lo, hi) =>
        if s.length < sz then (RuneError, 1)
        else
          match rest with
          | [] => (RuneError, 1)
          | s1 :: rest1 =>
            if s1 < lo ∨ hi < s1 then (RuneError, 1)
            else if sz ≤ 2 then (s0 % 32 * 64 + s1 % 64, 2)
            else
              match rest1 with
              | [] => (RuneError, 1)
              | s2 :: rest2 =>
                if s2 < 0x80 ∨ 0xBF < s2 then (RuneError, 1)
                else if sz ≤ 3 then (s0 % 16 * 4096 + s1 % 64 * 64 + s2 % 64, 3)
                else
                  match rest2 with
                  | [] => (RuneError, 1)
                  | s3 :: _ =>
                    if s3 < 0x80 ∨ 0xBF < s3 then (RuneError, 1)
                    else (s0 % 8 * 262144 + s1 % 64 * 4096 + s2 % 64 * 64 + s3 % 64, 4)

/-- The function `utf8.RuneStart`: `b` is not a continuation byte. -/
def RuneStart (b : Nat) : Bool :=
  !(decide (0x80 ≤ b) && decide (b ≤ 0xBF))

/-- The backward loop of `utf8.DecodeLastRuneInString`:
`for start--; start >= lim; start-- { if RuneStart(s[start]) { break } }`, entered with
`start` already decremented. -/
def backScan (s : GoString) (lim : Int) : Nat → Int → Int
  | 0, start => start
  | fuel + 1, start =>
    if start ≥ lim then
      if RuneStart (s.getD start.toNat 0) then start else backScan s lim fuel (start - 1)
    else start

/-- The function `utf8.DecodeLastRuneInString`: the last rune of `s` and its width. -/
def DecodeLastRune (s : GoString) : Rune × Nat :=
  let stop : Int := s.length
  if stop = 0 then (RuneError, 0)
  else
    let start := stop - 1
    let r := s.getD start.toNat 0
    if r < 0x80 then (r, 1)
    else
      let lim := if stop - 4 < 0 then 0 else stop - 4
      let start := backScan s lim 4 (start - 1)
      let start := if start < 0 then 0 else start
      match DecodeRune (s.drop start.toNat) with
      | (r, size) => if start + size ≠ stop then (RuneError, 1) else (r, size)

/-- The conversion `[]rune(s)` run for at most `fuel` runes. -/
def runesAux : Nat → GoString → List Rune
  | 0, _ => []
  | fuel + 1, s =>
    match s with
    | [] => []
    | _ :: _ => (DecodeRune s).1 :: runesAux fuel (s.drop (DecodeRune s).2)

/-- The conversion `[]rune(s)`: the runes of `s`, a `RuneError` for each invalid byte. Every
rune takes at least one byte, so `len(s)` steps reach the end of `s`. -/
def runes (s : GoString) : List Rune :=
  runesAux s.length s

/-- The function `unicode.IsSpace`. -/
def IsSpace (r : Rune) : Bool :=
  if r ≤ 0xFF then
    decide (r = 0x09 ∨ r = 0x0A ∨ r = 0x0B ∨ r = 0x0C ∨ r = 0x0D ∨ r = 0x20 ∨ r = 0x85 ∨
      r = 0xA0)
  else
    decide (r = 0x1680 ∨ (0x2000 ≤ r ∧ r ≤ 0x200A) ∨ r = 0x2028 ∨ r = 0x2029 ∨ r = 0x202F ∨
      r = 0x205F ∨ r = 0x3000)

/-- The function `strings.TrimLeftFunc(s, unicode.IsSpace)`, at most `fuel` runes dropped. -/
def trimLeftAux : Nat → GoString → GoString
  | 0, s => s
  | fuel + 1, s =>
    match s with
    | [] => []
    | _ :: _ =>
      if IsSpace (DecodeRune s).1 then trimLeftAux fuel (s.drop (DecodeRune s).2) else s

/-- The function `strings.TrimRightFunc(s, unicode.IsSpace)`, at most `fuel` runes dropped. -/
def trimRightAux : Nat → GoString → GoString
  | 0, s => s
  | fuel + 1, s =>
    match s with
    | [] => []
    | _ :: _ =>
      if IsSpace (DecodeLastRune s).1 then
        trimRightAux fuel (s.take (s.length - (DecodeLastRune s).2))
      else s

/-- The function `strings.TrimSpace`: `s` without its leading and trailing white space, as
Unicode defines it (the ASCII fast path of the library computes the same string). -/
def TrimSpace (s : GoString) : GoString :=
  let t := trimLeftAux s.length s
  trimRightAux t.length t

/-- The function `strings.HasPrefix`. -/
def HasPrefix (s pre : GoString) : Bool :=
  pre.isPrefixOf s

/-- The search of `strings.Index` from byte offset `i` on. -/
def IndexFrom (substr : GoString) : GoString → Nat → Int
  | [], i => if substr = [] then (i : Int) else -1
  | b :: s, i => if substr.isPrefixOf (b :: s) then (i : Int) else IndexFrom substr s (i + 1)

/-- The function `strings.Index`: the offset of the first instance of `substr` in `s`, or
`-1`. -/
def Index (s substr : GoString) : Int :=
  IndexFrom substr s 0

/-- The slice expression `s[lo:hi]`; `none` is the out-of-range panic. -/
def slice (s : GoString) (lo hi : Int) : Option GoString :=
  if 0 ≤ lo ∧ lo ≤ hi ∧ hi ≤ (s.length : Int) then some ((s.take hi.toNat).drop lo.toNat)
  else none

/-! ## The map `hotkeys` -/

/-- A Go `map[string]string`: its entries, no key twice. The order of the list is not the
order of a `range` loop, which Go leaves open. -/
abbrev GoMap := List (GoString × GoString)

/-- The assignment `m[key] = value`. -/
def mapSet : GoMap → GoString → GoString → GoMap
  | [], key, value => [(key, value)]
  | (k, v) :: rest, key, value =>
    if k = key then (key, value) :: rest else (k, v) :: mapSet rest key value

/-- The lookup `m[key]` with its presence flag. -/
def mapGet : GoMap → GoString → Option GoString
  | [], _ => none
  | (k, v) :: rest, key => if k = key then some v else mapGet rest key

/-! ## Side effects -/

/-- One call into `robotgo`. -/
inductive Effect where
  /-- The call `robotgo.KeyTap(key, args...)`. -/
  | keyTap (key : GoString) (args : List GoString)
  /-- The call `robotgo.WriteAll(text)`: write `text` to the clipboard. -/
  | writeAll (text : GoString)
deriving DecidableEq, Repr

/-! ## `initPasteKeys` -/

/-- The value `initPasteKeys` stores in the global `pasteKeys`, by `runtime.GOOS`. -/
def initPasteKeys (goos : GoString) : List GoString :=
  if goos = str "darwin" then [str "cmd", str "v"]
  else if goos = str "windows" ∨ goos = str "linux" then [str "ctrl", str "v"]
  else [str "ctrl", str "v"]

/-! ## `listenKeys` -/

/-- The closure `listenKeys` returns: its two parameters and the captured `keySerial`. -/
structure Closure where
  keyList : List Rune
  pasteText : GoString
  keySerial : List Rune
deriving DecidableEq, Repr

/-- The function `listenKeys(keyList, pasteText)`: a closure with `keySerial = []rune{}`. -/
def listenKeys (keyList : List Rune) (pasteText : GoString) : Closure :=
  { keyList := keyList, pasteText := pasteText, keySerial := [] }

/-- The steps 1 to 3 of a completed sequence: `len(keyList)` backspace taps, the clipboard
write, the paste shortcut `KeyTap(pasteKeys[1], pasteKeys[0])`. The flag is `false` when an
index into `pasteKeys` is out of range; the effects before it have happened. -/
def Closure.fire (pasteKeys : List GoString) (f : Closure) : List Effect × Bool :=
  let taps := List.replicate f.keyList.length (Effect.keyTap (str "backspace") [])
  match pasteKeys[1]?, pasteKeys[0]? with
  | some k, some m => (taps ++ [Effect.writeAll f.pasteText, Effect.keyTap k [m]], true)
  | _, _ => (taps ++ [Effect.writeAll f.pasteText], false)

/-- One call `fun(key)` of the closure: the effects it performs and the closure afterwards,
`none` when the call panics. The lookup `keyList[len(keySerial)]` comes first and panics
when out of range; `keyList[0]` of the second test is read only when `len(keySerial) == 1`,
where the first lookup has already shown `keyList` to have two elements. -/
def Closure.call (pasteKeys : List GoString) (f : Closure) (key : Rune) :
    List Effect × Option Closure :=
  match f.keyList[f.keySerial.length]? with
  | none => ([], none)
  | some expected =>
    if key = expected then
      let keySerial := f.keySerial ++ [key]
      if keySerial.length = f.keyList.length then
        match f.fire pasteKeys with
        | (effects, true) => (effects, some { f with keySerial := [] })
        | (effects, false) => (effects, none)
      else ([], some { f with keySerial := keySerial })
    else if f.keySerial.length = 1 ∧ f.keyList[0]? = some key then ([], some f)
    else ([], some { f with keySerial := [] })

/-- The closure called on each key of a list in turn: the effects of every call, in order,
and the closure after the last call (`none` after a panic, which ends the run). -/
def Closure.feed (pasteKeys : List GoString) : Closure → List Rune →
    List (List Effect) × Option Closure
  | f, [] => ([], some f)
  | f, key :: keys =>
    match f.call pasteKeys key with
    | (effects, none) => ([effects], none)
    | (effects, some g) =>
      let rest := Closure.feed pasteKeys g keys
      (effects :: rest.1, rest.2)

/-- The action of the matcher as the specification names it: `count` backspace taps, one
clipboard write of `replacement`, one paste shortcut (the second paste key tapped with the
first as its modifier). -/
def action (pasteKeys : List GoString) (count : Nat) (replacement : GoString) : List Effect :=
  List.replicate count (Effect.keyTap (str "backspace") []) ++
    [Effect.writeAll replacement, Effect.keyTap (pasteKeys.getD 1 []) [pasteKeys.getD 0 []]]


/-! ## `listen` -/

/-- The loop of `listen` over `hotkeys`, visited in the order `order`: one closure of
`listenKeys` per entry, over `[]rune(keySeq)`, each wrapped in a callback registered for
`hook.KeyUp`. The result is the registered callbacks, in registration order. -/
def register (order : List (GoString × GoString)) : List Closure :=
  order.map fun entry => listenKeys (runes entry.1) entry.2

/-- The callback `listen` registers around the closure `f`. The event is given by the string
`s = hook.RawcodetoKeychar(e.Rawcode)`: `f` is called with `rune(s[0])` when `len(s) == 1`,
and nothing happens otherwise. -/
def callback (pasteKeys : List GoString) (f : Closure) (s : GoString) :
    List Effect × Option Closure :=
  if s.length = 1 then f.call pasteKeys (s.getD 0 0) else ([], some f)

/-- One key-up event delivered by the hook library to every registered callback, in
registration order. A panic in a callback ends the process: the callbacks after it are not
run and the state is `none`. -/
def dispatch (pasteKeys : List GoString) (s : GoString) :
    List Closure → List Effect × Option (List Closure)
  | [] => ([], some [])
  | f :: fs =>
    match callback pasteKeys f s with
    | (effects, none) => (effects, none)
    | (effects, some g) =>
      match dispatch pasteKeys s fs with
      | (more, none) => (effects ++ more, none)
      | (more, some gs) => (effects ++ more, some (g :: gs))

/-- The event loop `<-hook.Process(s)` over a finite list of key-up events: the trace of
all effects, in order, and the callbacks afterwards. -/
def process (pasteKeys : List GoString) : List Closure → List GoString →
    List Effect × Option (List Closure)
  | fs, [] => ([], some fs)
  | fs, s :: events =>
    match dispatch pasteKeys s fs with
    | (effects, none) => (effects, none)
    | (effects, some gs) =>
      let rest := process pasteKeys gs events
      (effects ++ rest.1, rest.2)

/-- The function `listen(hotkeys)` run on the key-up events `events`, the `range` loop
visiting the entries of `hotkeys` in the order `order`. -/
def listen (pasteKeys : List GoString) (order : List (GoString × GoString))
    (events : List GoString) : List Effect × Option (List Closure) :=
  process pasteKeys (register order) events

/-- The key-up events of typing the single-byte characters of `t`, one event per character:
`hook.RawcodetoKeychar` returns the one-character string. -/
def typed (t : GoString) : List GoString :=
  t.map fun b => [b]

/-- The texts written to the clipboard in a trace, in order: one per invocation of the
action. -/
def written : List Effect → List GoString
  | [] => []
  | Effect.writeAll text :: rest => text :: written rest
  | Effect.keyTap _ _ :: rest => written rest

/-! ## `readConfig` -/

/-- The body of the scanning loop of `readConfig` for one line: the map `hotkeys` after it;
`none` is a panic of one of the two slice expressions. -/
def readLine (hotkeys : GoMap) (lineText : GoString) : Option GoMap :=
  if !(lineText.length == 0 || HasPrefix lineText (str "#")) then
    let i := Index lineText (str "=")
    if i > 0 then
      match slice lineText 0 i, slice lineText (i + 1) lineText.length with
      | some key, some value => some (mapSet hotkeys (TrimSpace key) (TrimSpace value))
      | _, _ => none
    else some hotkeys
  else some hotkeys

/-- The scanning loop of `readConfig` over the lines the scanner delivers. -/
def readLines : GoMap → List GoString → Option GoMap
  | hotkeys, [] => some hotkeys
  | hotkeys, lineText :: rest =>
    match readLine hotkeys lineText with
    | none => none
    | some next => readLines next rest

/-- The text of a configuration line before its first `=`. -/
def beforeEq (lineText : GoString) : GoString :=
  lineText.takeWhile fun b => b != 0x3D

/-- The text of a configuration line after its first `=`. -/
def afterEq (lineText : GoString) : GoString :=
  (lineText.dropWhile fun b => b != 0x3D).drop 1

/-- A line the specification calls malformed or a comment: empty, beginning with `#`,
without `=`, or with `=` as its first character. -/
def Skipped (lineText : GoString) : Prop :=
  lineText = [] ∨ lineText.head? = some 0x23 ∨ 0x3D ∉ lineText ∨ lineText.head? = some 0x3D

/-- A string without leading or trailing white space: empty, or neither its first nor its
last rune is a space. -/
def NoOuterSpace (s : GoString) : Prop :=
  s = [] ∨ (IsSpace (DecodeRune s).1 = false ∧ IsSpace (DecodeLastRune s).1 = false)

/-- A single-byte character that is not white space: below `0x80` and none of tab, line
feed, vertical tab, form feed, carriage return, space. -/
def PlainByte (b : Nat) : Prop :=
  b < 0x80 ∧ b ≠ 0x09 ∧ b ≠ 0x0A ∧ b ≠ 0x0B ∧ b ≠ 0x0C ∧ b ≠ 0x0D ∧ b ≠ 0x20

instance (lineText : GoString) : Decidable (Skipped lineText) := by
  unfold Skipped
  infer_instance

instance (s : GoString) : Decidable (NoOuterSpace s) := by
  unfold NoOuterSpace
  infer_instance

instance (b : Nat) : Decidable (PlainByte b) := by
  unfold PlainByte
  infer_instance

/-- The function `dropCR` of `bufio`: the line without one trailing carriage return. -/
def dropCR (data : GoString) : GoString :=
  if data.getLast? = some 0x0D then data.dropLast else data

/-- The constant `bufio.MaxScanTokenSize`. -/
def MaxScanTokenSize : Nat := 64 * 1024

/-- The tokens of a `bufio.Scanner` with `bufio.ScanLines` over the bytes `data`, `cur`
being the bytes of the line read so far: each line without its end-of-line marker, a last
line without line feed included when it is not empty. The flag is `true` when a line does
not fit the buffer of `MaxScanTokenSize` bytes: the scanner stops there with
`bufio.ErrTooLong`. -/
def scanLines : GoString → GoString → List GoString × Bool
  | [], cur =>
    if cur = [] then ([], false)
    else if MaxScanTokenSize ≤ cur.length then ([], true)
    else ([dropCR cur], false)
  | b :: data, cur =>
    if MaxScanTokenSize ≤ cur.length then ([], true)
    else if b = 0x0A then
      let rest := scanLines data []
      (dropCR cur :: rest.1, rest.2)
    else scanLines data (cur ++ [b])

/-- The part of the file system `readConfig` touches. `config` is what
`os.Open("config.txt")` yields: the contents of the file, or `none` when the call fails (the
file is absent, or it cannot be read). `writable` tells whether `os.WriteFile` succeeds, and
`reopens` whether `os.Open` succeeds on the file once `os.WriteFile` has written it (it does
not when the file stays unreadable, as with a file that exists without read permission). -/
structure FS where
  config : Option GoString
  writable : Bool
  reopens : Bool
deriving DecidableEq, Repr

/-- The file system after a successful `os.WriteFile(configPath, content, 0644)`. -/
def FS.WriteFile (fs : FS) (content : GoString) : FS :=
  { fs with config := if fs.reopens then some content else none }

/-- The ways the process ends inside `readConfig`. -/
inductive Exit where
  /-- The exit `log.Fatalf("无法创建示例配置文件: %s", err)`. -/
  | fatalCreate
  /-- The exit `log.Fatalf("Error while reading file: %s", err)`. -/
  | fatalRead
  /-- A run-time panic. -/
  | panicked
deriving DecidableEq, Repr

/-- The state `readConfig` leaves: the file system, the global `hotkeys`, and `exit`, which
is `none` when the function returns to its caller. -/
structure Outcome where
  fs : FS
  hotkeys : GoMap
  exit : Option Exit
deriving DecidableEq, Repr

/-- The sample configuration `readConfig` writes when `config.txt` cannot be opened. -/
def sampleContent : GoString :=
  str ("# 每行对应一条热键映射规则，格式为：热键序列=要粘贴的文本\n" ++
    "# 例如：hw=你好，世界！ 你可以试着在任意地方输入hw看看效果\n" ++
    "# 注意：热键序列应尽可能只包含小写字母和数字，以免引发意外错误\n" ++
    "# 井号开头的行是注释行，会被忽略。\n\nhw=你好，世界！")

/-- The function `readConfig` from `defer file.Close()` on, `file` being the contents behind
the handle, or `none` for the nil handle `os.Open` returns with an error. Every read from
a nil `*os.File` fails with `os.ErrInvalid`: the scanner delivers no line and its `Err()`
is that error. -/
def scanConfig (file : Option GoString) (hotkeys : GoMap) : GoMap × Option Exit :=
  match file with
  | none => (hotkeys, some Exit.fatalRead)
  | some data =>
    match readLines hotkeys (scanLines data []).1 with
    | none => (hotkeys, some Exit.panicked)
    | some next =>
      if (scanLines data []).2 then (next, some Exit.fatalRead) else (next, none)

/-- The function `readConfig`, its calls nested at most `fuel` deep (`none`: the nesting
goes deeper). When `os.Open` fails it writes the sample file, calls itself, and then goes on
after the `if` with the handle the failed `os.Open` returned. -/
def readConfig : Nat → FS → GoMap → Option Outcome
  | 0, _, _ => none
  | fuel + 1, fs, hotkeys =>
    match fs.config with
    | some data =>
      some { fs := fs, hotkeys := (scanConfig (some data) hotkeys).1,
             exit := (scanConfig (some data) hotkeys).2 }
    | none =>
      if fs.writable then
        match readConfig fuel (fs.WriteFile sampleContent) hotkeys with
        | none => none
        | some inner =>
          match inner.exit with
          | some _ => some inner
          | none =>
            some { fs := inner.fs, hotkeys := (scanConfig none inner.hotkeys).1,
                   exit := (scanConfig none inner.hotkeys).2 }
      else some { fs := fs, hotkeys := hotkeys, exit := some Exit.fatalCreate }

/-! ## The invariant of the closure -/

/-- The state of the closure between two calls. -/
structure Closure.Ready (f : Closure) : Prop where
  pre : f.keySerial <+: f.keyList
  lt : f.keySerial.length < f.keyList.length

/-! ## Lemmas -/

theorem initPasteKeys_eq (goos : GoString) :
    initPasteKeys goos = [str "cmd", str "v"] ∨ initPasteKeys goos = [str "ctrl", str "v"] := by
  unfold initPasteKeys
  split
  · exact Or.inl rfl
  · split <;> exact Or.inr rfl

theorem initPasteKeys_pair (goos : GoString) : ∃ m k, initPasteKeys goos = [m, k] := by
  rcases initPasteKeys_eq goos with h | h <;> exact ⟨_, _, h⟩

theorem fire_pair (m k : GoString) (f : Closure) :
    f.fire [m, k] = (action [m, k] f.keyList.length f.pasteText, true) := by
  simp [Closure.fire, action]

theorem call_forward (m k : GoString) (f : Closure) (key : Rune)
    (hk : f.keyList[f.keySerial.length]? = some key)
    (hlen : f.keySerial.length + 1 ≠ f.keyList.length) :
    f.call [m, k] key = ([], some { f with keySerial := f.keySerial ++ [key] }) := by
  simp [Closure.call, hk, hlen]

theorem call_complete (m k : GoString) (f : Closure) (key : Rune)
    (hk : f.keyList[f.keySerial.length]? = some key)
    (hlen : f.keySerial.length + 1 = f.keyList.length) :
    f.call [m, k] key =
      (action [m, k] f.keyList.length f.pasteText, some { f with keySerial := [] }) := by
  simp [Closure.call, hk, hlen, fire_pair]

theorem call_noop (pk : List GoString) (f : Closure) (key : Rune)
    (hlt : f.keySerial.length < f.keyList.length)
    (hk : f.keyList[f.keySerial.length]? ≠ some key)
    (h1 : f.keySerial.length = 1) (h0 : f.keyList[0]? = some key) :
    f.call pk key = ([], some f) := by
  obtain ⟨e, he⟩ : ∃ e, f.keyList[f.keySerial.length]? = some e :=
    ⟨_, List.getElem?_eq_getElem hlt⟩
  have hne : key ≠ e := fun h => hk (by rw [he, h])
  simp only [Closure.call, he, hne, if_false]
  simp [h1, h0]

theorem call_reset (pk : List GoString) (f : Closure) (key : Rune)
    (hlt : f.keySerial.length < f.keyList.length)
    (hk : f.keyList[f.keySerial.length]? ≠ some key)
    (hx : ¬ (f.keySerial.length = 1 ∧ f.keyList[0]? = some key)) :
    f.call pk key = ([], some { f with keySerial := [] }) := by
  obtain ⟨e, he⟩ : ∃ e, f.keyList[f.keySerial.length]? = some e :=
    ⟨_, List.getElem?_eq_getElem hlt⟩
  have hne : key ≠ e := fun h => hk (by rw [he, h])
  simp only [Closure.call, he, hne, if_false, hx]

theorem prefix_snoc {l : List Rune} {p : List Rune} {key : Rune}
    (hp : p <+: l) (hk : l[p.length]? = some key) : p ++ [key] <+: l := by
  obtain ⟨t, rfl⟩ := hp
  cases t with
  | nil => simp at hk
  | cons a t =>
    rw [List.getElem?_append_right (le_refl _)] at hk
    simp at hk
    subst hk
    exact ⟨t, by simp⟩

theorem ready_listenKeys (keyList : List Rune) (pasteText : GoString) (h : keyList ≠ []) :
    (listenKeys keyList pasteText).Ready :=
  ⟨List.nil_prefix, by simpa [listenKeys] using List.length_pos.mpr h⟩

theorem call_step (m k : GoString) (f : Closure) (key : Rune) (hist : List Rune)
    (hf : f.Ready) (hs : f.keySerial <:+ hist) :
    ∃ e g, f.call [m, k] key = (e, some g) ∧ g.Ready ∧ g.keyList = f.keyList ∧
      g.pasteText = f.pasteText ∧ g.keySerial <:+ hist ++ [key] ∧
      (e ≠ [] → f.keyList <:+ hist ++ [key]) := by
  have hpos : 0 < f.keyList.length := Nat.lt_of_le_of_lt (Nat.zero_le _) hf.lt
  by_cases hk : f.keyList[f.keySerial.length]? = some key
  · have hsnoc : f.keySerial ++ [key] <+: f.keyList := prefix_snoc hf.pre hk
    have hsuf : f.keySerial ++ [key] <:+ hist ++ [key] := by
      obtain ⟨t, rfl⟩ := hs
      exact ⟨t, by simp⟩
    by_cases hlen : f.keySerial.length + 1 = f.keyList.length
    · refine ⟨_, _, call_complete m k f key hk hlen, ⟨List.nil_prefix, hpos⟩, rfl, rfl,
        List.nil_suffix, fun _ => ?_⟩
      have heq : f.keySerial ++ [key] = f.keyList :=
        List.IsPrefix.eq_of_length hsnoc (by simpa using hlen)
      rw [← heq]
      exact hsuf
    · refine ⟨_, _, call_forward m k f key hk hlen, ⟨hsnoc, ?_⟩, rfl, rfl, hsuf,
        fun h => absurd rfl h⟩
      have := hsnoc.length_le
      simp at this ⊢
      omega
  · by_cases hx : f.keySerial.length = 1 ∧ f.keyList[0]? = some key
    · refine ⟨_, _, call_noop _ f key hf.lt hk hx.1 hx.2, hf, rfl, rfl, ?_, fun h => absurd rfl h⟩
      obtain ⟨t, ht⟩ := hf.pre
      have hser : f.keySerial = [key] := by
        match hq : f.keySerial, hx.1 with
        | [a], _ =>
          have h0 := hx.2
          rw [← ht, hq] at h0
          simp at h0
          rw [h0]
      rw [hser]
      exact ⟨hist, rfl⟩
    · exact ⟨_, _, call_reset _ f key hf.lt hk hx, ⟨List.nil_prefix, hpos⟩, rfl, rfl,
        List.nil_suffix, fun h => absurd rfl h⟩

theorem feed_ready (m k : GoString) (keys : List Rune) :
    ∀ f : Closure, f.Ready →
      ∃ g, (f.feed [m, k] keys).2 = some g ∧ g.Ready ∧ g.keyList = f.keyList ∧
        g.pasteText = f.pasteText := by
  induction keys with
  | nil => intro f hf; exact ⟨f, rfl, hf, rfl, rfl⟩
  | cons key keys ih =>
    intro f hf
    obtain ⟨e, g, hc, hg, hkl, hpt, -, -⟩ := call_step m k f key f.keySerial hf (List.suffix_refl _)
    obtain ⟨g2, h2, hr, hkl2, hpt2⟩ := ih g hg
    refine ⟨g2, ?_, hr, hkl2.trans hkl, hpt2.trans hpt⟩
    simp only [Closure.feed, hc]
    exact h2

theorem feed_history (m k : GoString) (keys : List Rune) :
    ∀ (f : Closure) (hist : List Rune) (i : Nat) (e : List Effect), f.Ready →
      f.keySerial <:+ hist → (f.feed [m, k] keys).1[i]? = some e → e ≠ [] →
      f.keyList <:+ hist ++ keys.take (i + 1) := by
  induction keys with
  | nil => intro f hist i e _ _ h; simp [Closure.feed] at h
  | cons key keys ih =>
    intro f hist i e hf hs hi he
    obtain ⟨e1, g, hc, hg, hkl, -, hsg, hfire⟩ := call_step m k f key hist hf hs
    simp only [Closure.feed, hc] at hi
    cases i with
    | zero =>
      simp at hi
      subst hi
      simpa using hfire he
    | succ i =>
      simp at hi
      have := ih g (hist ++ [key]) i e hg hsg hi he
      rw [hkl] at this
      simpa using this

theorem feed_append (pk : List GoString) (a b : List Rune) :
    ∀ (f g : Closure) (ea : List (List Effect)), f.feed pk a = (ea, some g) →
      f.feed pk (a ++ b) = (ea ++ (g.feed pk b).1, (g.feed pk b).2) := by
  induction a with
  | nil =>
    intro f g ea h
    simp only [Closure.feed, Prod.mk.injEq, Option.some.injEq] at h
    obtain ⟨rfl, rfl⟩ := h
    simp
  | cons key a ih =>
    intro f g ea h
    simp only [Closure.feed, List.cons_append] at h ⊢
    rcases hc : f.call pk key with ⟨e, _ | f1⟩
    · simp [hc] at h
    · simp only [hc, Prod.mk.injEq] at h ⊢
      obtain ⟨rfl, h2⟩ := h
      have := ih f1 g (f1.feed pk a).1 (Prod.ext rfl h2)
      change e :: (Closure.feed pk f1 (a ++ b)).1 = _ ∧ (Closure.feed pk f1 (a ++ b)).2 = _
      rw [this]
      simp

theorem feed_rest (m k : GoString) (rest : List Rune) :
    ∀ f : Closure, rest ≠ [] → f.keyList = f.keySerial ++ rest →
      f.feed [m, k] rest =
        (List.replicate (rest.length - 1) [] ++ [action [m, k] f.keyList.length f.pasteText],
          some { f with keySerial := [] }) := by
  induction rest with
  | nil => intro f h; exact absurd rfl h
  | cons key rest ih =>
    intro f _ hkl
    have hk : f.keyList[f.keySerial.length]? = some key := by
      rw [hkl, List.getElem?_append_right (le_refl _)]
      simp
    cases rest with
    | nil =>
      have hlen : f.keySerial.length + 1 = f.keyList.length := by rw [hkl]; simp
      simp [Closure.feed, call_complete m k f key hk hlen]
    | cons key2 rest =>
      have hlen : f.keySerial.length + 1 ≠ f.keyList.length := by rw [hkl]; simp
      have := ih { f with keySerial := f.keySerial ++ [key] } (by simp) (by simp [hkl])
      rw [Closure.feed, call_forward m k f key hk hlen]
      simp only [this]
      simp [List.replicate_succ]

theorem keySerial_single (f : Closure) (c : Rune) (hp : f.keySerial <+: f.keyList)
    (h1 : f.keySerial.length = 1) (h0 : f.keyList[0]? = some c) : f.keySerial = [c] := by
  obtain ⟨t, ht⟩ := hp
  match hq : f.keySerial, h1 with
  | [a], _ =>
    rw [← ht, hq] at h0
    simp at h0
    rw [h0]

theorem feed_length_le (pk : List GoString) (keys : List Rune) :
    ∀ f : Closure, (f.feed pk keys).1.length ≤ keys.length := by
  induction keys with
  | nil => intro f; simp [Closure.feed]
  | cons key keys ih =>
    intro f
    rcases hc : f.call pk key with ⟨e, _ | g⟩
    · simp [Closure.feed, hc]
    · simpa [Closure.feed, hc] using ih g

/-! ### The map -/

theorem mapGet_mapSet_self (m : GoMap) (key value : GoString) :
    mapGet (mapSet m key value) key = some value := by
  induction m with
  | nil => simp [mapSet, mapGet]
  | cons e m ih =>
    obtain ⟨k, v⟩ := e
    by_cases hk : k = key
    · simp [mapSet, mapGet, hk]
    · simp [mapSet, mapGet, hk, ih]

theorem mapGet_mapSet_other (m : GoMap) (key value k2 : GoString) (h : k2 ≠ key) :
    mapGet (mapSet m key value) k2 = mapGet m k2 := by
  induction m with
  | nil => simp [mapSet, mapGet, h.symm]
  | cons e m ih =>
    obtain ⟨k, v⟩ := e
    by_cases hk : k = key
    · subst hk
      simp [mapSet, mapGet, h.symm]
    · by_cases hk2 : k = k2
      · subst hk2
        simp [mapSet, mapGet, hk]
      · simp [mapSet, mapGet, hk, hk2, ih]

/-! ### Lines -/

theorem takeWhile_ne_cons (c b : Nat) (l : GoString) (hb : b ≠ c) :
    (b :: l).takeWhile (fun x => x != c) = b :: l.takeWhile (fun x => x != c) := by
  rw [List.takeWhile_cons]
  simp [hb]

theorem dropWhile_ne_cons (c b : Nat) (l : GoString) (hb : b ≠ c) :
    (b :: l).dropWhile (fun x => x != c) = l.dropWhile (fun x => x != c) := by
  rw [List.dropWhile_cons]
  simp [hb]

theorem indexFrom_byte (c : Nat) (l : GoString) :
    ∀ i : Nat, IndexFrom [c] l i =
      if c ∈ l then ((i + (l.takeWhile fun b => b != c).length : Nat) : Int) else -1 := by
  induction l with
  | nil => intro i; simp [IndexFrom]
  | cons b l ih =>
    intro i
    by_cases hb : c = b
    · subst hb
      simp [IndexFrom, List.isPrefixOf]
    · have hb2 : b ≠ c := fun h => hb h.symm
      have hp : [c].isPrefixOf (b :: l) = false := by simp [List.isPrefixOf, hb]
      have hm : c ∈ b :: l ↔ c ∈ l := by simp [hb]
      rw [IndexFrom, hp, ih (i + 1), takeWhile_ne_cons c b l hb2, List.length_cons]
      have : i + 1 + (List.takeWhile (fun b => b != c) l).length =
          i + ((List.takeWhile (fun b => b != c) l).length + 1) := by omega
      rw [this]
      by_cases hc : c ∈ l
      · simp [hc]
      · simp [hc, hb]

theorem index_eq (l : GoString) :
    Index l (str "=") = if 0x3D ∈ l then ((beforeEq l).length : Int) else -1 := by
  have h := indexFrom_byte 0x3D l 0
  simp only [Nat.zero_add] at h
  exact h

theorem beforeEq_append_afterEq (l : GoString) (h : 0x3D ∈ l) :
    l = beforeEq l ++ 0x3D :: afterEq l := by
  induction l with
  | nil => simp at h
  | cons b l ih =>
    by_cases hb : b = 0x3D
    · subst hb
      simp [beforeEq, afterEq, List.takeWhile, List.dropWhile]
    · have hl : 0x3D ∈ l := by
        rcases List.mem_cons.mp h with h1 | h1
        · exact absurd h1.symm hb
        · exact h1
      have := ih hl
      unfold beforeEq afterEq at this ⊢
      rw [takeWhile_ne_cons _ b l hb, dropWhile_ne_cons _ b l hb, List.cons_append, ← this]

theorem str_hash : str "#" = [0x23] := by decide

theorem str_eq : str "=" = [0x3D] := by decide

theorem hasPrefix_hash (l : GoString) : HasPrefix l (str "#") = decide (l.head? = some 0x23) := by
  rw [str_hash]
  cases l with
  | nil => simp [HasPrefix, List.isPrefixOf]
  | cons b l =>
    by_cases hb : b = 0x23
    · simp [HasPrefix, List.isPrefixOf, hb]
    · have hb2 : ¬ 0x23 = b := fun h => hb h.symm
      simp [HasPrefix, List.isPrefixOf, hb, hb2]

theorem readLine_skipped (hotkeys : GoMap) (l : GoString) (h : Skipped l) :
    readLine hotkeys l = some hotkeys := by
  unfold readLine
  rcases h with h | h | h | h
  · simp [h]
  · simp [hasPrefix_hash, h]
  · simp [index_eq, h]
  · have hmem : 0x3D ∈ l := by
      cases l with
      | nil => simp at h
      | cons b l => simp at h; simp [h]
    have hb : beforeEq l = [] := by
      cases l with
      | nil => rfl
      | cons b l =>
        simp at h
        subst h
        simp [beforeEq, List.takeWhile]
    simp [index_eq, hmem, hb]

theorem readLine_rule (hotkeys : GoMap) (l : GoString) (h : ¬ Skipped l) :
    readLine hotkeys l =
      some (mapSet hotkeys (TrimSpace (beforeEq l)) (TrimSpace (afterEq l))) := by
  have h1 : l ≠ [] := fun hh => h (Or.inl hh)
  have h2 : l.head? ≠ some 0x23 := fun hh => h (Or.inr (Or.inl hh))
  have h3 : 0x3D ∈ l := by
    by_contra hh
    exact h (Or.inr (Or.inr (Or.inl hh)))
  have h4 : l.head? ≠ some 0x3D := fun hh => h (Or.inr (Or.inr (Or.inr hh)))
  have hsplit := beforeEq_append_afterEq l h3
  have hpos : 0 < (beforeEq l).length := by
    cases l with
    | nil => exact absurd rfl h1
    | cons b l =>
      have hb : b ≠ 0x3D := by simpa using h4
      unfold beforeEq
      rw [takeWhile_ne_cons _ b l hb]
      simp
  have hlen : l.length = (beforeEq l).length + 1 + (afterEq l).length := by
    conv_lhs => rw [hsplit]
    simp
    omega
  have hs1 : slice l 0 ((beforeEq l).length : Int) = some (beforeEq l) := by
    unfold slice
    rw [if_pos ⟨le_refl _, by omega, by omega⟩]
    have ht : List.take (beforeEq l).length (beforeEq l ++ 0x3D :: afterEq l) = beforeEq l := by
      simp
    rw [← hsplit] at ht
    simp [ht]
  have hs2 : slice l (((beforeEq l).length : Int) + 1) (l.length : Int) = some (afterEq l) := by
    unfold slice
    rw [if_pos ⟨by omega, by omega, le_refl _⟩]
    have e1 : ((l.length : Int)).toNat = l.length := by simp
    have e2 : (((beforeEq l).length : Int) + 1).toNat = (beforeEq l).length + 1 := by omega
    rw [e1, e2, List.take_length]
    have hd : List.drop ((beforeEq l).length + 1) (beforeEq l ++ 0x3D :: afterEq l) =
        afterEq l := by
      simp
    rw [← hsplit] at hd
    rw [hd]
  have hl0 : (l.length == 0) = false := by
    cases l with
    | nil => exact absurd rfl h1
    | cons b l => simp
  have hp : HasPrefix l (str "#") = false := by
    rw [hasPrefix_hash]
    simpa using h2
  unfold readLine
  simp only [hl0, hp, Bool.or_self, Bool.not_false, if_true, index_eq, h3]
  have hgt : ((beforeEq l).length : Int) > 0 := by omega
  simp only [hgt, if_true, hs1, hs2]

theorem readLine_total (hotkeys : GoMap) (l : GoString) : ∃ next, readLine hotkeys l = some next := by
  by_cases h : Skipped l
  · exact ⟨_, readLine_skipped hotkeys l h⟩
  · exact ⟨_, readLine_rule hotkeys l h⟩

theorem readLines_total (lines : List GoString) :
    ∀ hotkeys : GoMap, ∃ next, readLines hotkeys lines = some next := by
  induction lines with
  | nil => intro hotkeys; exact ⟨hotkeys, rfl⟩
  | cons l lines ih =>
    intro hotkeys
    obtain ⟨next, hn⟩ := readLine_total hotkeys l
    obtain ⟨last, hl⟩ := ih next
    exact ⟨last, by simp [readLines, hn, hl]⟩

theorem readLines_snoc (lines : List GoString) (l : GoString) :
    ∀ hotkeys before : GoMap, readLines hotkeys lines = some before →
      readLines hotkeys (lines ++ [l]) = readLine before l := by
  induction lines with
  | nil =>
    intro hotkeys before h
    simp only [readLines, Option.some.injEq] at h
    subst h
    simp only [List.nil_append, readLines]
    cases readLine hotkeys l <;> rfl
  | cons l1 lines ih =>
    intro hotkeys before h
    simp only [readLines, List.cons_append] at h ⊢
    cases h1 : readLine hotkeys l1 with
    | none => simp [h1] at h
    | some next =>
      simp only [h1] at h ⊢
      exact ih next before h

/-! ### Trimming and decoding plain text -/

theorem trimSpace_noOuterSpace (s : GoString) (h : NoOuterSpace s) : TrimSpace s = s := by
  cases s with
  | nil => rfl
  | cons b s =>
    rcases h with h | ⟨h1, h2⟩
    · cases h
    · have hl : trimLeftAux (b :: s).length (b :: s) = b :: s := by
        simp [trimLeftAux, h1]
      unfold TrimSpace
      simp only [hl]
      simp [trimRightAux, h2]

theorem isSpace_plain (b : Nat) (h : PlainByte b) : IsSpace b = false := by
  obtain ⟨h0, h1, h2, h3, h4, h5, h6⟩ := h
  have h7 : b ≠ 0x85 := by omega
  have h8 : b ≠ 0xA0 := by omega
  have h9 : b ≤ 0xFF := by omega
  simp [IsSpace, h1, h2, h3, h4, h5, h6, h7, h8, h9]

theorem decodeRune_ascii (b : Nat) (s : GoString) (h : b < 0x80) : DecodeRune (b :: s) = (b, 1) := by
  simp [DecodeRune, h]

theorem decodeLastRune_ascii (s : GoString) (b : Nat) (h : b < 0x80) :
    DecodeLastRune (s ++ [b]) = (b, 1) := by
  have hg : (s ++ [b]).getD s.length 0 = b := by
    simp [List.getD_eq_getElem?_getD]
  have hlen : (((s ++ [b]).length : Int) - 1).toNat = s.length := by
    simp
  have hne : ¬ ((s ++ [b]).length : Int) = 0 := by
    simp
    omega
  unfold DecodeLastRune
  simp only [hne, if_false, hlen, hg, h, if_true]

theorem noOuterSpace_plain (t : GoString) (h : ∀ b ∈ t, PlainByte b) : NoOuterSpace t := by
  cases t with
  | nil => exact Or.inl rfl
  | cons b t =>
    refine Or.inr ⟨?_, ?_⟩
    · rw [decodeRune_ascii b t (h b (by simp)).1]
      exact isSpace_plain b (h b (by simp))
    · obtain ⟨s, c, hs⟩ : ∃ s c, b :: t = s ++ [c] :=
        ⟨(b :: t).dropLast, (b :: t).getLast (by simp), (List.dropLast_append_getLast _).symm⟩
      have hc : PlainByte c := h c (by rw [hs]; simp)
      rw [hs, decodeLastRune_ascii s c hc.1]
      exact isSpace_plain c hc

theorem runes_ascii (t : GoString) (h : ∀ b ∈ t, b < 0x80) : runes t = t := by
  unfold runes
  induction t with
  | nil => rfl
  | cons b t ih =>
    have hb : b < 0x80 := h b (by simp)
    have ht := ih (fun c hc => h c (by simp [hc]))
    simp only [List.length_cons, runesAux, decodeRune_ascii b t hb, List.drop_succ_cons,
      List.drop_zero, ht]

/-! ### One registered callback -/

theorem dispatch_single (pk : List GoString) (f : Closure) (b : Nat) :
    dispatch pk [b] [f] = ((f.call pk b).1, (f.call pk b).2.map fun g => [g]) := by
  rcases hc : f.call pk b with ⟨e, _ | g⟩
  · simp [dispatch, callback, hc]
  · simp [dispatch, callback, hc]

theorem process_single (pk : List GoString) (keys : GoString) :
    ∀ f : Closure, process pk [f] (typed keys) =
      ((f.feed pk keys).1.flatten, (f.feed pk keys).2.map fun g => [g]) := by
  induction keys with
  | nil => intro f; simp [process, typed, Closure.feed]
  | cons b keys ih =>
    intro f
    have ih2 : ∀ g : Closure, process pk [g] (List.map (fun b => [b]) keys) =
        ((g.feed pk keys).1.flatten, (g.feed pk keys).2.map fun g => [g]) := ih
    rcases hc : f.call pk b with ⟨e, _ | g⟩
    · simp [process, typed, Closure.feed, dispatch_single, hc]
    · simp [process, typed, Closure.feed, dispatch_single, hc, ih2]

theorem flatten_replicate_nil (n : Nat) (a : List Effect) :
    (List.replicate n ([] : List Effect) ++ [a]).flatten = a := by
  induction n with
  | zero => simp
  | succ n ih => simp [List.replicate_succ]

theorem written_action (pk : List GoString) (count : Nat) (replacement : GoString) :
    written (action pk count replacement) = [replacement] := by
  unfold action
  induction count with
  | zero => simp [written]
  | succ n ih => simpa [List.replicate_succ, written] using ih

theorem listen_single (goos t r : GoString) (ht : t ≠ []) (hascii : ∀ b ∈ t, b < 0x80) :
    listen (initPasteKeys goos) [(t, r)] (typed t) =
      (action (initPasteKeys goos) t.length r, some [listenKeys t r]) := by
  obtain ⟨m, k, hpk⟩ := initPasteKeys_pair goos
  rw [hpk]
  have hfeed := feed_rest m k t (listenKeys t r) ht (by simp [listenKeys])
  have hfeed : (listenKeys t r).feed [m, k] t =
      (List.replicate (t.length - 1) [] ++ [action [m, k] t.length r],
        some (listenKeys t r)) := hfeed
  simp only [listen, register, List.map_cons, List.map_nil, runes_ascii t hascii,
    process_single, hfeed, flatten_replicate_nil, Option.map_some']

theorem readLine_plain (hotkeys : GoMap) (t r : GoString) (ht : t ≠ [])
    (hplain : ∀ b ∈ t, PlainByte b ∧ b ≠ 0x3D) (hhash : t.head? ≠ some 0x23)
    (hr : NoOuterSpace r) :
    readLine hotkeys (t ++ str "=" ++ r) = some (mapSet hotkeys t r) := by
  rw [str_eq]
  have hnot : 0x3D ∉ t := fun hm => (hplain _ hm).2 rfl
  have hb : beforeEq (t ++ [0x3D] ++ r) = t := by
    unfold beforeEq
    rw [List.append_assoc, List.takeWhile_append_of_pos]
    · simp [List.takeWhile]
    · intro b hbm
      have : b ≠ 0x3D := fun h => hnot (h ▸ hbm)
      simpa using this
  have ha : afterEq (t ++ [0x3D] ++ r) = r := by
    unfold afterEq
    rw [List.append_assoc, List.dropWhile_append_of_pos]
    · simp [List.dropWhile]
    · intro b hbm
      have : b ≠ 0x3D := fun h => hnot (h ▸ hbm)
      simpa using this
  have hskip : ¬ Skipped (t ++ [0x3D] ++ r) := by
    cases t with
    | nil => exact absurd rfl ht
    | cons b t =>
      have hb1 : b ≠ 0x3D := (hplain b (by simp)).2
      have hb2 : b ≠ 0x23 := by simpa using hhash
      rintro (h | h | h | h)
      · simp at h
      · simp at h; exact hb2 h
      · simp at h
      · simp at h; exact hb1 h
  rw [readLine_rule hotkeys _ hskip, hb, ha,
    trimSpace_noOuterSpace t (noOuterSpace_plain t fun b hbm => (hplain b hbm).1),
    trimSpace_noOuterSpace r hr]

/-! ### The fuel of the string loops is enough -/

theorem decodeRune_width (b : Nat) (s : GoString) :
    1 ≤ (DecodeRune (b :: s)).2 ∧ (DecodeRune (b :: s)).2 ≤ 4 := by
  unfold DecodeRune
  repeat' split
  all_goals simp_all

theorem runesAux_fuel (n : Nat) : ∀ (s : GoString) (m : Nat), s.length ≤ n → s.length ≤ m →
    runesAux n s = runesAux m s := by
  induction n with
  | zero =>
    intro s m hn _
    have hs : s = [] := List.length_eq_zero.mp (Nat.le_zero.mp hn)
    subst hs
    cases m <;> rfl
  | succ n ih =>
    intro s m hn hm
    cases s with
    | nil => cases m <;> rfl
    | cons b s =>
      cases m with
      | zero => simp at hm
      | succ m =>
        have hw := (decodeRune_width b s).1
        simp only [runesAux, List.cons.injEq, true_and]
        apply ih
        · simp only [List.length_drop, List.length_cons] at hn ⊢
          omega
        · simp only [List.length_drop, List.length_cons] at hm ⊢
          omega

theorem trimLeftAux_fuel (n : Nat) : ∀ (s : GoString) (m : Nat), s.length ≤ n → s.length ≤ m →
    trimLeftAux n s = trimLeftAux m s := by
  induction n with
  | zero =>
    intro s m hn _
    have hs : s = [] := List.length_eq_zero.mp (Nat.le_zero.mp hn)
    subst hs
    cases m <;> rfl
  | succ n ih =>
    intro s m hn hm
    cases s with
    | nil => cases m <;> rfl
    | cons b s =>
      cases m with
      | zero => simp at hm
      | succ m =>
        have hw := (decodeRune_width b s).1
        simp only [trimLeftAux]
        split
        · apply ih
          · simp only [List.length_drop, List.length_cons] at hn ⊢
            omega
          · simp only [List.length_drop, List.length_cons] at hm ⊢
            omega
        · rfl

theorem backScan_le (s : GoString) (lim : Int) (fuel : Nat) :
    ∀ start : Int, backScan s lim fuel start ≤ start := by
  induction fuel with
  | zero => intro start; exact le_refl _
  | succ fuel ih =>
    intro start
    unfold backScan
    split
    · split
      · exact le_refl _
      · have := ih (start - 1)
        omega
    · exact le_refl _

theorem decodeLastRune_width (b : Nat) (s : GoString) : 1 ≤ (DecodeLastRune (b :: s)).2 := by
  unfold DecodeLastRune
  have hlen : ((b :: s).length : Int) = (s.length : Int) + 1 := by simp
  simp only [hlen]
  split
  · omega
  · split
    · exact Nat.le_refl _
    · generalize (if (s.length : Int) + 1 - 4 < 0 then (0 : Int) else (s.length : Int) + 1 - 4)
        = lim
      generalize hs : backScan (b :: s) lim 4 ((s.length : Int) + 1 - 1 - 1) = st
      have hb : st ≤ (s.length : Int) + 1 - 1 - 1 := hs ▸ backScan_le _ _ _ _
      generalize hc : (if st < 0 then (0 : Int) else st) = c
      have hc2 : c < (s.length : Int) + 1 := by
        rw [← hc]
        split <;> omega
      generalize DecodeRune (List.drop c.toNat (b :: s)) = X
      obtain ⟨r, size⟩ := X
      simp only
      split
      · exact Nat.le_refl _
      · rename_i hsum
        simp only [ne_eq, Decidable.not_not] at hsum
        show 1 ≤ size
        omega

theorem trimRightAux_fuel (n : Nat) : ∀ (s : GoString) (m : Nat), s.length ≤ n → s.length ≤ m →
    trimRightAux n s = trimRightAux m s := by
  induction n with
  | zero =>
    intro s m hn _
    have hs : s = [] := List.length_eq_zero.mp (Nat.le_zero.mp hn)
    subst hs
    cases m <;> rfl
  | succ n ih =>
    intro s m hn hm
    cases s with
    | nil => cases m <;> rfl
    | cons b s =>
      cases m with
      | zero => simp at hm
      | succ m =>
        have hw := decodeLastRune_width b s
        simp only [trimRightAux]
        split
        · apply ih
          · simp only [List.length_take, List.length_cons] at hn ⊢
            omega
          · simp only [List.length_take, List.length_cons] at hm ⊢
            omega
        · rfl

/-! ### The sample configuration -/

theorem readConfig_opened (fuel : Nat) (fs : FS) (data : GoString) (hotkeys : GoMap)
    (h : fs.config = some data) :
    readConfig (fuel + 1) fs hotkeys =
      some { fs := fs, hotkeys := (scanConfig (some data) hotkeys).1,
             exit := (scanConfig (some data) hotkeys).2 } := by
  simp only [readConfig, h]

theorem readConfig_created (fuel : Nat) (fs : FS) (hotkeys : GoMap) (h : fs.config = none)
    (hw : fs.writable = true) :
    readConfig (fuel + 1) fs hotkeys =
      match readConfig fuel (fs.WriteFile sampleContent) hotkeys with
      | none => none
      | some inner =>
        match inner.exit with
        | some _ => some inner
        | none =>
          some { fs := inner.fs, hotkeys := (scanConfig none inner.hotkeys).1,
                 exit := (scanConfig none inner.hotkeys).2 } := by
  simp only [readConfig, h, hw, if_true]

theorem readConfig_unwritable (fuel : Nat) (fs : FS) (hotkeys : GoMap) (h : fs.config = none)
    (hw : fs.writable = false) :
    readConfig (fuel + 1) fs hotkeys =
      some { fs := fs, hotkeys := hotkeys, exit := some Exit.fatalCreate } := by
  simp [readConfig, h, hw]

/-- When `os.Open` keeps failing although `os.WriteFile` succeeds (a `config.txt` that
exists without read permission), every call of `readConfig` writes the sample and calls
itself again: no depth of nesting is enough, and the real process ends in a stack
overflow. -/
theorem readConfig_unreadable (fuel : Nat) :
    ∀ (fs : FS) (hotkeys : GoMap), fs.config = none → fs.writable = true →
      fs.reopens = false → readConfig fuel fs hotkeys = none := by
  induction fuel with
  | zero => intro fs hotkeys _ _ _; rfl
  | succ fuel ih =>
    intro fs hotkeys h hw hr
    have hfs : fs.WriteFile sampleContent = fs := by
      cases fs
      simp_all [FS.WriteFile]
    simp only [readConfig, h, hw, if_true, hfs, ih fs hotkeys h hw hr]

set_option maxRecDepth 100000 in
theorem scanConfig_sample :
    scanConfig (some sampleContent) [] = ([(str "hw", str "你好，世界！")], none) := by
  decide

/-! ## The matcher -/

/-- C1: a fresh closure of `listenKeys` fed the characters of its non-empty trigger, in
order, performs nothing on the first `L - 1` characters and on the last one exactly the
action (`L` backspace taps, the clipboard write of the replacement, the paste shortcut),
and is left with an empty `keySerial`; fed the same characters again it does the same
again. -/
theorem listenKeys_trigger_completes (goos : GoString) (keyList : List Rune)
    (pasteText : GoString) (h : keyList ≠ []) :
    (listenKeys keyList pasteText).feed (initPasteKeys goos) keyList =
        (List.replicate (keyList.length - 1) [] ++
            [action (initPasteKeys goos) keyList.length pasteText],
          some (listenKeys keyList pasteText)) ∧
      (listenKeys keyList pasteText).feed (initPasteKeys goos) (keyList ++ keyList) =
        ((List.replicate (keyList.length - 1) [] ++
              [action (initPasteKeys goos) keyList.length pasteText]) ++
            (List.replicate (keyList.length - 1) [] ++
              [action (initPasteKeys goos) keyList.length pasteText]),
          some (listenKeys keyList pasteText)) := by
  obtain ⟨m, k, hpk⟩ := initPasteKeys_pair goos
  rw [hpk]
  have h1 := feed_rest m k keyList (listenKeys keyList pasteText) h (by simp [listenKeys])
  have h1 : (listenKeys keyList pasteText).feed [m, k] keyList =
      (List.replicate (keyList.length - 1) [] ++ [action [m, k] keyList.length pasteText],
        some (listenKeys keyList pasteText)) := h1
  refine ⟨h1, ?_⟩
  rw [feed_append [m, k] keyList keyList _ _ _ h1, h1]

/-- C1, at the trigger `hw` with the replacement `Hello` on linux. -/
theorem listenKeys_trigger_completes_witness :
    str "hw" ≠ [] ∧
      (listenKeys (str "hw") (str "Hello")).feed (initPasteKeys (str "linux")) (str "hw") =
        ([[], [Effect.keyTap (str "backspace") [], Effect.keyTap (str "backspace") [],
              Effect.writeAll (str "Hello"), Effect.keyTap (str "v") [str "ctrl"]]],
          some (listenKeys (str "hw") (str "Hello"))) :=
  ⟨by decide, (listenKeys_trigger_completes (str "linux") (str "hw") (str "Hello")
    (by decide)).1.trans (by decide)⟩

/-- C5: whatever keys a closure of `listenKeys` over a non-empty trigger is fed, no call
panics, and after the last call (so after each call) `keySerial` is a proper prefix of the
trigger: its length is below `len(keyList)`, and the lookup `keyList[len(keySerial)]` of the
next call is in bounds. -/
theorem listenKeys_progress_invariant (goos : GoString) (keyList : List Rune)
    (pasteText : GoString) (keys : List Rune) (h : keyList ≠ []) :
    ∃ f, ((listenKeys keyList pasteText).feed (initPasteKeys goos) keys).2 = some f ∧
      f.keyList = keyList ∧ f.pasteText = pasteText ∧ f.keySerial <+: keyList ∧
      f.keySerial.length < keyList.length ∧ (keyList[f.keySerial.length]?).isSome = true := by
  obtain ⟨m, k, hpk⟩ := initPasteKeys_pair goos
  rw [hpk]
  obtain ⟨f, hf, hr, hkl, hpt⟩ :=
    feed_ready m k keys (listenKeys keyList pasteText) (ready_listenKeys keyList pasteText h)
  have hkl : f.keyList = keyList := hkl
  have hlt : f.keySerial.length < keyList.length := hkl ▸ hr.lt
  refine ⟨f, hf, hkl, hpt, hkl ▸ hr.pre, hlt, ?_⟩
  rw [List.getElem?_eq_getElem hlt]
  rfl

/-- C5, at the trigger `aab` after the keys a, a, a, b, a. -/
theorem listenKeys_progress_invariant_witness :
    str "aab" ≠ [] ∧
      ∃ f, ((listenKeys (str "aab") (str "x")).feed (initPasteKeys (str "linux"))
          (str "aaaba")).2 = some f ∧
        f.keyList = str "aab" ∧ f.pasteText = str "x" ∧ f.keySerial <+: str "aab" ∧
        f.keySerial.length < (str "aab").length ∧
        ((str "aab")[f.keySerial.length]?).isSome = true :=
  ⟨by decide, listenKeys_progress_invariant (str "linux") (str "aab") (str "x") (str "aaaba")
    (by decide)⟩

/-- C6: at every state `f` a closure over a non-empty trigger reaches, a character `c` that
is not `keyList[len(keySerial)]`, and for which it is not the case that `len(keySerial) == 1`
and `c == keyList[0]`, empties `keySerial` and performs no effect; `c` is not kept as the
first character of a new attempt, also when it equals `keyList[0]`. -/
theorem listenKeys_reset_step (goos : GoString) (keyList : List Rune) (pasteText : GoString)
    (keys : List Rune) (f : Closure) (c : Rune) (h : keyList ≠ [])
    (hreach : ((listenKeys keyList pasteText).feed (initPasteKeys goos) keys).2 = some f)
    (hne : keyList[f.keySerial.length]? ≠ some c)
    (hex : ¬ (f.keySerial.length = 1 ∧ keyList[0]? = some c)) :
    f.call (initPasteKeys goos) c = ([], some (listenKeys keyList pasteText)) := by
  obtain ⟨m, k, hpk⟩ := initPasteKeys_pair goos
  rw [hpk] at hreach ⊢
  obtain ⟨g, hg, hr, hkl, hpt⟩ :=
    feed_ready m k keys (listenKeys keyList pasteText) (ready_listenKeys keyList pasteText h)
  rw [hreach] at hg
  cases hg
  have hkl : f.keyList = keyList := hkl
  rw [call_reset _ f c hr.lt (hkl ▸ hne) (hkl ▸ hex), hkl, hpt]
  rfl

/-- C6, at the trigger `abc` with `keySerial` at `ab` and the character `a`. -/
theorem listenKeys_reset_step_witness :
    ((listenKeys (str "abc") (str "x")).feed (initPasteKeys (str "linux")) (str "ab")).2 =
        some { keyList := str "abc", pasteText := str "x", keySerial := str "ab" } ∧
      Closure.call (initPasteKeys (str "linux"))
          { keyList := str "abc", pasteText := str "x", keySerial := str "ab" } 97 =
        ([], some (listenKeys (str "abc") (str "x"))) :=
  ⟨by decide, listenKeys_reset_step (str "linux") (str "abc") (str "x") (str "ab")
    { keyList := str "abc", pasteText := str "x", keySerial := str "ab" } 97
    (by decide) (by decide) (by decide) (by decide)⟩

/-- C7: for a trigger of length at least 2, at a reached state with `len(keySerial) == 1`
and a character `c` equal to `keyList[0]`: (a) when `c` is also `keyList[1]` the call is the
forward match (`keySerial` becomes `[c, c]`, or the action is performed and `keySerial`
emptied when the trigger has length 2); (b) otherwise the call changes nothing and performs
no effect, `keySerial` staying `[c]`. -/
theorem listenKeys_first_char_exception (goos : GoString) (keyList : List Rune)
    (pasteText : GoString) (keys : List Rune) (f : Closure) (c : Rune)
    (h2 : 2 ≤ keyList.length)
    (hreach : ((listenKeys keyList pasteText).feed (initPasteKeys goos) keys).2 = some f)
    (h1 : f.keySerial.length = 1) (hc : keyList[0]? = some c) :
    (keyList[1]? = some c →
        f.call (initPasteKeys goos) c =
          if keyList.length = 2 then
            (action (initPasteKeys goos) keyList.length pasteText,
              some (listenKeys keyList pasteText))
          else
            ([], some { keyList := keyList, pasteText := pasteText, keySerial := [c, c] })) ∧
      (keyList[1]? ≠ some c → f.keySerial = [c] ∧ f.call (initPasteKeys goos) c = ([], some f)) := by
  have hne : keyList ≠ [] := by
    intro h0
    rw [h0] at h2
    simp at h2
  obtain ⟨m, k, hpk⟩ := initPasteKeys_pair goos
  rw [hpk] at hreach ⊢
  obtain ⟨g, hg, hr, hkl, hpt⟩ :=
    feed_ready m k keys (listenKeys keyList pasteText) (ready_listenKeys keyList pasteText hne)
  rw [hreach] at hg
  cases hg
  have hkl : f.keyList = keyList := hkl
  have hpt : f.pasteText = pasteText := hpt
  have hser : f.keySerial = [c] := keySerial_single f c hr.pre h1 (hkl ▸ hc)
  constructor
  · intro hk
    have hk1 : f.keyList[f.keySerial.length]? = some c := by rw [h1, hkl]; exact hk
    by_cases hl : keyList.length = 2
    · rw [if_pos hl, call_complete m k f c hk1 (by rw [h1, hkl, hl]), hkl, hpt]
      rfl
    · rw [if_neg hl, call_forward m k f c hk1 (by rw [h1, hkl]; omega), hser, hkl, hpt]
      rfl
  · intro hk
    exact ⟨hser, call_noop _ f c hr.lt (by rw [h1, hkl]; exact hk) h1 (hkl ▸ hc)⟩

/-- C7, at the trigger `hw` fed h: a second h leaves `keySerial` at `[h]`, and the w that
follows completes the trigger. -/
theorem listenKeys_first_char_exception_witness :
    Closure.call (initPasteKeys (str "linux"))
        { keyList := str "hw", pasteText := str "x", keySerial := str "h" } 104 =
      ([], some { keyList := str "hw", pasteText := str "x", keySerial := str "h" }) ∧
    ((listenKeys (str "hw") (str "x")).feed (initPasteKeys (str "linux")) (str "hhw")).1 =
      [[], [], action (initPasteKeys (str "linux")) 2 (str "x")] ∧
    ((listenKeys (str "aab") (str "x")).feed (initPasteKeys (str "linux")) (str "aa")).2 =
      some { keyList := str "aab", pasteText := str "x", keySerial := str "aa" } :=
  ⟨((listenKeys_first_char_exception (str "linux") (str "hw") (str "x") (str "h")
      { keyList := str "hw", pasteText := str "x", keySerial := str "h" } 104
      (by decide) (by decide) (by decide) (by decide)).2 (by decide)).2,
    by decide, by decide⟩

/-- C10: when the `n`-th key fed to a fresh closure over a non-empty trigger of length `L`
makes the closure perform its action, `n ≥ L` and the `L` keys delivered last (positions
`n - L + 1` to `n`) are the trigger itself, in order. -/
theorem listenKeys_completion_sound (goos : GoString) (keyList : List Rune)
    (pasteText : GoString) (keys : List Rune) (n : Nat) (e : List Effect) (h : keyList ≠ [])
    (hn : 1 ≤ n)
    (hcall : ((listenKeys keyList pasteText).feed (initPasteKeys goos) keys).1[n - 1]? = some e)
    (hfire : e ≠ []) :
    keyList.length ≤ n ∧ (keys.take n).drop (n - keyList.length) = keyList := by
  obtain ⟨m, k, hpk⟩ := initPasteKeys_pair goos
  rw [hpk] at hcall
  have hsuf := feed_history m k keys (listenKeys keyList pasteText) [] (n - 1) e
    (ready_listenKeys keyList pasteText h) List.nil_suffix hcall hfire
  have hn1 : n - 1 + 1 = n := by omega
  rw [hn1, List.nil_append] at hsuf
  have hsuf : keyList <:+ keys.take n := hsuf
  have hle : keyList.length ≤ n := by
    have h1 := hsuf.length_le
    have h2 := List.length_take_le n keys
    omega
  refine ⟨hle, ?_⟩
  obtain ⟨t, ht⟩ := hsuf
  have hlen : (keys.take n).length = n := by
    have hlt : n - 1 < keys.length := by
      by_contra hge
      have hlen2 := feed_length_le [m, k] keys (listenKeys keyList pasteText)
      rw [List.getElem?_eq_none (by omega)] at hcall
      cases hcall
    rw [List.length_take]
    omega
  have htl : t.length = n - keyList.length := by
    have := congrArg List.length ht
    rw [List.length_append, hlen] at this
    omega
  rw [← ht, ← htl, List.drop_left]

/-- C10, at the trigger `hw` fed h, h, w: the third key completes and the two keys delivered
last are h, w. -/
theorem listenKeys_completion_sound_witness :
    str "hw" ≠ [] ∧ 1 ≤ 3 ∧
      ((listenKeys (str "hw") (str "x")).feed (initPasteKeys (str "linux")) (str "hhw")).1[3 - 1]?
        = some (action (initPasteKeys (str "linux")) 2 (str "x")) ∧
      action (initPasteKeys (str "linux")) 2 (str "x") ≠ [] ∧
      (str "hw").length ≤ 3 ∧ ((str "hhw").take 3).drop (3 - (str "hw").length) = str "hw" :=
  ⟨by decide, by decide, by decide, by decide,
    listenKeys_completion_sound (str "linux") (str "hw") (str "x") (str "hhw") 3
      (action (initPasteKeys (str "linux")) 2 (str "x")) (by decide) (by decide) (by decide)
      (by decide)⟩

/-! ## The rule loader and the engine -/

/-- C2: for a configuration of the one line `t=r`, with `t` a non-empty string of single-byte
characters that are not white space, without `=` and not beginning with `#`, and `r` without
leading or trailing white space, the loop of `readConfig` leaves the one rule `t -> r`, and
`listen` on the key events of typing `t` performs the action exactly once, with
`len(t)` backspaces and the replacement `r`. -/
theorem config_line_end_to_end (goos t r : GoString) (ht : t ≠ [])
    (hplain : ∀ b ∈ t, PlainByte b ∧ b ≠ 0x3D) (hhash : t.head? ≠ some 0x23)
    (hr : NoOuterSpace r) :
    readLines [] [t ++ str "=" ++ r] = some [(t, r)] ∧
      ∀ order : List (GoString × GoString), order.Perm [(t, r)] →
        listen (initPasteKeys goos) order (typed t) =
            (action (initPasteKeys goos) t.length r, some [listenKeys t r]) ∧
          written (listen (initPasteKeys goos) order (typed t)).1 = [r] := by
  refine ⟨?_, ?_⟩
  · simp only [readLines, readLine_plain [] t r ht hplain hhash hr, mapSet]
  · intro order horder
    have ho : order = [(t, r)] := List.perm_singleton.mp horder
    subst ho
    have hl := listen_single goos t r ht fun b hb => (hplain b hb).1.1
    exact ⟨hl, by rw [hl]; exact written_action _ _ _⟩

/-- C2, at the configuration `hw=Hello, world!` and the keys h, w. -/
theorem config_line_end_to_end_witness :
    readLines [] [str "hw" ++ str "=" ++ str "Hello, world!"] =
        some [(str "hw", str "Hello, world!")] ∧
      ∀ order : List (GoString × GoString), order.Perm [(str "hw", str "Hello, world!")] →
        listen (initPasteKeys (str "linux")) order (typed (str "hw")) =
            (action (initPasteKeys (str "linux")) (str "hw").length (str "Hello, world!"),
              some [listenKeys (str "hw") (str "Hello, world!")]) ∧
          written (listen (initPasteKeys (str "linux")) order (typed (str "hw"))).1 =
            [str "Hello, world!"] :=
  config_line_end_to_end (str "linux") (str "hw") (str "Hello, world!") (by decide)
    (by decide) (by decide) (by decide)

/-- C3, as stated, fails: after the lines `go=A` and `go=B` the map holds the one rule
`go -> B`, and the keys g, o make `listen` perform one action, with `B`, not two. -/
theorem duplicate_trigger_fires_once :
    readLines [] [str "go=A", str "go=B"] = some [(str "go", str "B")] ∧
      listen (initPasteKeys (str "linux")) [(str "go", str "B")] (typed (str "go")) =
        (action (initPasteKeys (str "linux")) 2 (str "B"),
          some [listenKeys (str "go") (str "B")]) ∧
      written (listen (initPasteKeys (str "linux")) [(str "go", str "B")]
        (typed (str "go"))).1 = [str "B"] ∧
      (written (listen (initPasteKeys (str "linux")) [(str "go", str "B")]
        (typed (str "go"))).1).length ≠ 2 := by
  decide

/-- C3, amended: `hotkeys` is a map keyed by the trigger, so it never holds two rules with
one trigger. For a trigger `t` that is a non-empty string of single-byte characters that are
not white space, without `=` and not beginning with `#`, and replacements `a` and `b`
without leading or trailing white space: the loop of `readConfig` over the two lines `t=a`
and `t=b`, from the empty map, leaves the one rule `t -> b`, the later line replacing the
rule of the earlier, and `listen` on the key events of typing `t` performs the action
exactly once, with `len(t)` backspaces and the replacement `b`. -/
theorem duplicate_trigger_last_wins (goos t a b : GoString) (ht : t ≠ [])
    (hplain : ∀ c ∈ t, PlainByte c ∧ c ≠ 0x3D) (hhash : t.head? ≠ some 0x23)
    (ha : NoOuterSpace a) (hb : NoOuterSpace b) :
    readLines [] [t ++ str "=" ++ a, t ++ str "=" ++ b] = some [(t, b)] ∧
      ∀ order : List (GoString × GoString), order.Perm [(t, b)] →
        listen (initPasteKeys goos) order (typed t) =
            (action (initPasteKeys goos) t.length b, some [listenKeys t b]) ∧
          written (listen (initPasteKeys goos) order (typed t)).1 = [b] := by
  refine ⟨?_, ?_⟩
  · simp only [readLines, readLine_plain _ t a ht hplain hhash ha,
      readLine_plain _ t b ht hplain hhash hb, mapSet, if_true]
  · intro order horder
    have ho : order = [(t, b)] := List.perm_singleton.mp horder
    subst ho
    have hl := listen_single goos t b ht fun c hc => (hplain c hc).1.1
    exact ⟨hl, by rw [hl]; exact written_action _ _ _⟩

/-- C3 amended, at the lines `go=A` and `go=B`. -/
theorem duplicate_trigger_last_wins_witness :
    readLines [] [str "go" ++ str "=" ++ str "A", str "go" ++ str "=" ++ str "B"] =
        some [(str "go", str "B")] ∧
      ∀ order : List (GoString × GoString), order.Perm [(str "go", str "B")] →
        listen (initPasteKeys (str "linux")) order (typed (str "go")) =
            (action (initPasteKeys (str "linux")) (str "go").length (str "B"),
              some [listenKeys (str "go") (str "B")]) ∧
          written (listen (initPasteKeys (str "linux")) order (typed (str "go"))).1 =
            [str "B"] :=
  duplicate_trigger_last_wins (str "linux") (str "go") (str "A") (str "B") (by decide)
    (by decide) (by decide) (by decide) (by decide)

/-- C4, the code at the line ` =x`: the guard `i > 0` passes (`=` is at offset 1), the key
trims to the empty string, the rule with the empty trigger is stored, and the first
single-character key event makes its closure index `keyList[0]` out of range. -/
theorem empty_trigger_reaches_matcher :
    TrimSpace (beforeEq (str " =x")) = [] ∧
      readLines [] [str " =x"] = some [([], str "x")] ∧
      register [([], str "x")] = [listenKeys [] (str "x")] ∧
      listen (initPasteKeys (str "linux")) [([], str "x")] (typed (str "a")) = ([], none) := by
  decide

/-- C8: the loop of `readConfig` never fails, whatever the lines; a line that is empty,
begins with `#`, has no `=` or has `=` as its first character leaves `hotkeys` as it was;
every other line stores the trimmed text after the first `=` under the trimmed text before
it, and changes the entry of no other key. -/
theorem readConfig_lines_skip_or_add (hotkeys : GoMap) (lines : List GoString)
    (lineText : GoString) :
    ∃ before after, readLines hotkeys lines = some before ∧
      readLines hotkeys (lines ++ [lineText]) = some after ∧
      (Skipped lineText → after = before) ∧
      (¬ Skipped lineText →
        after = mapSet before (TrimSpace (beforeEq lineText)) (TrimSpace (afterEq lineText)) ∧
        mapGet after (TrimSpace (beforeEq lineText)) = some (TrimSpace (afterEq lineText)) ∧
        ∀ k, k ≠ TrimSpace (beforeEq lineText) → mapGet after k = mapGet before k) := by
  obtain ⟨before, hb⟩ := readLines_total lines hotkeys
  obtain ⟨after, ha⟩ := readLine_total before lineText
  refine ⟨before, after, hb, (readLines_snoc lines lineText hotkeys before hb).trans ha, ?_, ?_⟩
  · intro hs
    rw [readLine_skipped before lineText hs] at ha
    exact (Option.some.inj ha).symm
  · intro hs
    rw [readLine_rule before lineText hs] at ha
    have ha := (Option.some.inj ha).symm
    exact ⟨ha, by rw [ha]; exact mapGet_mapSet_self _ _ _,
      fun k hk => by rw [ha]; exact mapGet_mapSet_other _ _ _ k hk⟩

/-- C9, the code on a missing `config.txt` in a directory where the sample can be written
and then opened: `readConfig` writes the sample, its inner call reads it and stores the rule
`hw -> 你好，世界！`, and the outer call then goes on to scan the nil handle of the failed
`os.Open` and ends the process through `log.Fatalf("Error while reading file: ...")`; a
later start, which finds the file, returns normally. Two nested calls are all it takes. -/
theorem readConfig_missing_file_exits (fuel : Nat) :
    readConfig (fuel + 2) { config := none, writable := true, reopens := true } [] =
        some { fs := { config := some sampleContent, writable := true, reopens := true },
               hotkeys := [(str "hw", str "你好，世界！")],
               exit := some Exit.fatalRead } ∧
      readConfig (fuel + 1) { config := some sampleContent, writable := true, reopens := true }
          [] =
        some { fs := { config := some sampleContent, writable := true, reopens := true },
               hotkeys := [(str "hw", str "你好，世界！")],
               exit := none } := by
  have h2 : ∀ n : Nat,
      readConfig (n + 1) { config := some sampleContent, writable := true, reopens := true }
          [] =
        some { fs := { config := some sampleContent, writable := true, reopens := true },
               hotkeys := [(str "hw", str "你好，世界！")],
               exit := none } := by
    intro n
    rw [readConfig_opened n _ sampleContent [] rfl, scanConfig_sample]
  refine ⟨?_, h2 fuel⟩
  have hw : FS.WriteFile { config := none, writable := true, reopens := true } sampleContent =
      { config := some sampleContent, writable := true, reopens := true } := rfl
  rw [readConfig_created (fuel + 1) _ [] rfl rfl, hw, h2 fuel]
  rfl

end Hotword
